import Mathlib

/-!
Verification of a small regular-expression engine (parser, transition
compiler, backtracking matcher).

The definitions below are a shallow embedding of the Rust sources:
  * `src/types.rs`  — `Mod`, `PatternSection`, `Transition`,
    `Transition::states_from`, `PatternSection::to_transition*`
  * `src/parser.rs` — `Parser::parse` and its helpers
  * `src/engine.rs` — `Engine::new`, `Engine::is_match`

Rust `HashMap<K, Vec<V>>` values are modelled as association lists
(`List (K × List V)`); the `entry(k).or_insert(vec![]).push/append`
idiom maps to `insAppend` below, and map lookup to `lookupAssoc`
(first matching entry; by construction keys stay unique, mirroring the
hash map).  Rust `panic!`/`expect`/failed `assert!` are modelled as
`Option.none`.  The matcher's `while let` loop, which the source does
not guarantee to terminate, is modelled with an explicit step budget
(`fuel`); `none` means the budget ran out, `some b` means the Rust loop
returns `b`.
-/

namespace Regex

/-- `Mod` from types.rs: quantifier attached to a pattern node. -/
inductive Mod where
  | One
  | ZeroOrOne
  | OneOrMore
  | Any
  | Range (min max : Nat)
deriving DecidableEq, Repr

/-- `Mod::from` (types.rs): quantifier from a suffix character. -/
def Mod.fromChar (c : Char) : Option Mod :=
  if c = '?' then some Mod.ZeroOrOne
  else if c = '+' then some Mod.OneOrMore
  else if c = '*' then some Mod.Any
  else none

/-- `Op` from types.rs: parser operator stack entries. -/
inductive Op where
  | And
  | Or
  | Paren
deriving DecidableEq, Repr

/-- `PatternSection` from types.rs: the pattern tree. -/
inductive PatternSection where
  | And (children : List PatternSection) (m : Mod)
  | Or (children : List PatternSection) (m : Mod)
  | Char (c : Char) (m : Mod)
  | CharGroup (chars : List Char) (m : Mod) (isNegated : Bool)
deriving Repr

/-- `PatternSection::get_mod` (types.rs). -/
def PatternSection.getMod : PatternSection → Mod
  | .And _ m => m
  | .Or _ m => m
  | .Char _ m => m
  | .CharGroup _ m _ => m

/-- `entry(k).or_insert(vec![]).append(vs)` on an association list:
append `vs` to the first entry with key `k`, or add a new entry at the
end (hash-map entries are unique by construction, so "first" is "the"
entry). -/
def insAppend {κ ν : Type} [DecidableEq κ] :
    List (κ × List ν) → κ → List ν → List (κ × List ν)
  | [], k, vs => [(k, vs)]
  | (k0, vs0) :: rest, k, vs =>
    if k0 = k then (k0, vs0 ++ vs) :: rest else (k0, vs0) :: insAppend rest k vs

/-- `map.get(k)` on an association list, with a missing entry read as
the empty list (absence and an empty bucket are observationally equal
in `states_from`). -/
def lookupAssoc {κ ν : Type} [DecidableEq κ] : List (κ × List ν) → κ → List ν
  | [], _ => []
  | (k0, vs) :: rest, k => if k0 = k then vs else lookupAssoc rest k

/-- `Transition` from types.rs: `base` maps `(state, Option<char>)` to
target states, `negated` maps a state to a map from excluded-char lists
to target states. -/
structure Transition where
  base : List ((Nat × Option Char) × List Nat)
  negated : List (Nat × List (List Char × List Nat))
deriving DecidableEq, Repr

/-- `Transition::new`. -/
def Transition.new : Transition := ⟨[], []⟩

/-- `Transition::insert_base`. -/
def Transition.insertBase (t : Transition) (k : Nat × Option Char) (v : Nat) :
    Transition :=
  ⟨insAppend t.base k [v], t.negated⟩

/-- Inner update used by `Transition::insert_negated`: append `to` to
the bucket of `notChars` inside the submap of `state`. -/
def insNeg : List (Nat × List (List Char × List Nat)) → Nat → List Char → Nat →
    List (Nat × List (List Char × List Nat))
  | [], s, nc, v => [(s, [(nc, [v])])]
  | (s0, sm) :: rest, s, nc, v =>
    if s0 = s then (s0, insAppend sm nc [v]) :: rest
    else (s0, sm) :: insNeg rest s nc v

/-- `Transition::insert_negated`. -/
def Transition.insertNegated (t : Transition) (s : Nat) (nc : List Char)
    (v : Nat) : Transition :=
  ⟨t.base, insNeg t.negated s nc v⟩

/-- The `negated` part of `Transition::merge`: fold the other map's
entries in, merging submaps bucket by bucket. -/
def insNegEntry (l : List (Nat × List (List Char × List Nat))) (s : Nat)
    (sub : List (List Char × List Nat)) :
    List (Nat × List (List Char × List Nat)) :=
  match l with
  | [] => [(s, sub.foldl (fun sm e => insAppend sm e.1 e.2) [])]
  | (s0, sm) :: rest =>
    if s0 = s then (s0, sub.foldl (fun sm e => insAppend sm e.1 e.2) sm) :: rest
    else (s0, sm) :: insNegEntry rest s sub

/-- `Transition::merge`. -/
def Transition.merge (t other : Transition) : Transition :=
  ⟨other.base.foldl (fun b e => insAppend b e.1 e.2) t.base,
   other.negated.foldl (fun n e => insNegEntry n e.1 e.2) t.negated⟩

/-- `Transition::states_from` (types.rs, lines 44–78): successor
`(state, offset)` pairs from `state` at offset `i`, where `c` is
`chars.get(i)`.  Consuming edges (literal, wildcard `'.'`, negated
class) advance the offset; epsilon edges keep it. -/
def statesFrom (t : Transition) (state : Nat) (c : Option Char) (i : Nat) :
    List (Nat × Nat) :=
  (match c with
   | some ch =>
     ((lookupAssoc t.base (state, some ch)).map (fun ns => (ns, i + 1)))
     ++ ((lookupAssoc t.base (state, some '.')).map (fun ns => (ns, i + 1)))
     ++ ((lookupAssoc t.negated state).map
          (fun e => if ch ∈ e.1 then [] else e.2.map (fun ns => (ns, i + 1)))).flatten
   | none => [])
  ++ ((lookupAssoc t.base (state, none)).map (fun ns => (ns, i)))

/-- The `while let Some((state, i)) = stack.pop()` loop of
`Engine::is_match` (engine.rs, lines 20–34).  The Lean list head is the
Rust `Vec` top, so `stack.append(&mut new_states)` becomes
`new_states.reverse ++ rest`.  One unit of fuel per loop iteration;
`none` = budget exhausted (the Rust loop has no such exit and may
diverge). -/
def isMatchLoop (t : Transition) (finish : Nat) (chars : List Char) :
    Nat → List (Nat × Nat) → Option Bool
  | _, [] => some false
  | 0, _ :: _ => none
  | fuel + 1, (state, i) :: rest =>
    if state = finish ∧ chars.length ≤ i then some true
    else isMatchLoop t finish chars fuel
      ((statesFrom t state (chars.get? i) i).reverse ++ rest)

/-- `Engine::is_match` terminates on `chars` and yields a boolean. -/
def isMatchTerminates (t : Transition) (finish : Nat) (chars : List Char) :
    Prop :=
  ∃ fuel b, isMatchLoop t finish chars fuel [(0, 0)] = some b

/-- `Engine::is_match` returns `true` on `chars`. -/
def engineAccepts (t : Transition) (finish : Nat) (chars : List Char) : Prop :=
  ∃ fuel, isMatchLoop t finish chars fuel [(0, 0)] = some true

/-- `c.is_ascii_alphanumeric()` from the parser's literal branch. -/
def isAsciiAlphanumeric (c : Char) : Bool :=
  ('a' ≤ c && c ≤ 'z') || ('A' ≤ c && c ≤ 'Z') || ('0' ≤ c && c ≤ '9')

/-- UTF-8 byte size of a scalar value, as used by Rust's `str::len`. -/
def charUtf8Size (c : Char) : Nat :=
  if c.val < 0x80 then 1
  else if c.val < 0x800 then 2
  else if c.val < 0x10000 then 3
  else 4

/-- Rust `raw.len()`: the UTF-8 byte length of the pattern. -/
def byteLen (raw : List Char) : Nat := (raw.map charUtf8Size).sum

/-- `usize::from_str_radix(s, 10)`: optional leading `'+'`, then at
least one decimal digit, value below `2^64`; anything else is `Err`
(modelled as `none`). -/
def parseNatRust (s : List Char) : Option Nat :=
  let digits := if s.head? = some '+' then s.tail else s
  if digits.isEmpty then none
  else if digits.all (fun c => '0' ≤ c && c ≤ '9') then
    let v := digits.foldl (fun acc c => acc * 10 + (c.toNat - '0'.toNat)) 0
    if v < 18446744073709551616 then some v else none
  else none

/-- Scan the iterator until a stop character, returning the collected
characters, the stop character, and the rest; `none` when the iterator
is exhausted first (a Rust `expect` panic). -/
def scanUntil (stop : Char → Bool) : List Char → Option (List Char × Char × List Char)
  | [] => none
  | c :: rest =>
    if stop c then some ([], c, rest)
    else (scanUntil stop rest).map (fun r => (c :: r.1, r.2.1, r.2.2))

/-- The `'['` branch's inner scanning: read the negation marker and the
class members up to `']'`.  Returns `(isNegated, members, rest)`. -/
def scanCharGroup : List Char → Option (Bool × List Char × List Char)
  | [] => none
  | c :: rest =>
    if c = '^' then
      (scanUntil (fun x => x = ']') rest).map (fun r => (true, r.1, r.2.2))
    else
      (scanUntil (fun x => x = ']') (c :: rest)).map (fun r => (false, r.1, r.2.2))

/-- `Parser::inject_mod` (parser.rs): replace the quantifier of the
value-stack top; `none` models the `expect("Empty stack error")` panic. -/
def injectMod (stack : List PatternSection) (m : Mod) :
    Option (List PatternSection) :=
  match stack with
  | [] => none
  | p :: rest =>
    let p' := match p with
      | .And v _ => PatternSection.And v m
      | .Or v _ => PatternSection.Or v m
      | .Char c _ => PatternSection.Char c m
      | .CharGroup v _ n => PatternSection.CharGroup v m n
    some (p' :: rest)

/-- `Parser::pop_same` (parser.rs): pop the run of operators equal to
the top one; returns the operator, how many were popped, and the rest.
The list head is the Rust `Vec` top. -/
def popSame (ops : List Op) : Option Op × Nat × List Op :=
  match ops with
  | [] => (none, 0, [])
  | o :: _ => (some o, (ops.takeWhile (fun x => x = o)).length,
               ops.dropWhile (fun x => x = o))

/-- `Parser::collapse_stacks` (parser.rs).  Each round pops at least
one operator, so `ops.length` bounds the rounds; the fuel argument is
initialized accordingly at every call site.  `none` models the panics:
`stack.drain` underflow when fewer than `count + 1` values are on the
value stack, and the `unreachable!` when a `Paren` is popped. -/
def collapseStacks (u : Option Op → Bool) :
    Nat → List PatternSection → List Op → Option (List PatternSection × List Op)
  | 0, stack, ops =>
    if u ops.head? then some (stack, ops)
    else
      match popSame ops with
      | (none, _, _) => some (stack, ops)
      | (some _, _, _) => none
  | fuel + 1, stack, ops =>
    if u ops.head? then some (stack, ops)
    else
      match popSame ops with
      | (none, _, _) => some (stack, ops)
      | (some op, count, rest) =>
        if count + 1 ≤ stack.length then
          let tail := (stack.take (count + 1)).reverse
          match op with
          | Op.And =>
            collapseStacks u fuel
              (PatternSection.And tail Mod.One :: stack.drop (count + 1)) rest
          | Op.Or =>
            collapseStacks u fuel
              (PatternSection.Or tail Mod.One :: stack.drop (count + 1)) rest
          | Op.Paren => none
        else none

/-- The `while let Some(c) = raw_it.next()` loop of `Parser::parse`.
Fuel counts outer iterations; every iteration consumes at least one
character, so `raw.length` suffices and the `none`-on-empty-fuel arm is
unreachable from `parse`.  State: value stack (head = top), operator
stack (head = top), the `need_and` flag, and the iteration counter
`idx`; `rawLen` is the byte length used in the `')'` branch. -/
def parseLoop (rawLen : Nat) :
    Nat → List PatternSection → List Op → Bool → Nat → List Char →
    Option (List PatternSection × List Op)
  | _, stack, ops, _, _, [] => some (stack, ops)
  | 0, _, _, _, _, _ :: _ => none
  | fuel + 1, stack, ops, needAnd, idx, c :: rest =>
    match Mod.fromChar c with
    | some m =>
      match injectMod stack m with
      | none => none
      | some stack' => parseLoop rawLen fuel stack' ops needAnd (idx + 1) rest
    | none =>
      if c = '|' then
        match collapseStacks
            (fun o => match o with | some Op.And => false | _ => true)
            (ops.length + 1) stack ops with
        | none => none
        | some (stack', ops') =>
          parseLoop rawLen fuel stack' (Op.Or :: ops') false (idx + 1) rest
      else if c = '(' then
        parseLoop rawLen fuel stack
          (Op.Paren :: (if needAnd then Op.And :: ops else ops)) false (idx + 1) rest
      else if c = ')' then
        match collapseStacks
            (fun o => match o with | some Op.Paren => true | _ => false)
            (ops.length + 1) stack ops with
        | none => none
        | some (stack', ops') =>
          match ops' with
          | Op.Paren :: ops'' =>
            parseLoop rawLen fuel stack' ops''
              (if idx < rawLen - 1 then true else needAnd) (idx + 1) rest
          | _ => none
      else if c = '[' then
        match scanCharGroup rest with
        | none => none
        | some (isNeg, members, rest') =>
          parseLoop rawLen fuel
            (PatternSection.CharGroup members Mod.One isNeg :: stack)
            (if needAnd then Op.And :: ops else ops) true (idx + 1) rest'
      else if c = '{' then
        match scanUntil (fun x => x = ',' || x = '}') rest with
        | none => none
        | some (minStr, stopc, rest1) =>
          match parseNatRust minStr with
          | none => none
          | some mn =>
            if stopc = '}' then
              match injectMod stack (Mod.Range mn mn) with
              | none => none
              | some stack' => parseLoop rawLen fuel stack' ops needAnd (idx + 1) rest1
            else
              match scanUntil (fun x => x = '}') rest1 with
              | none => none
              | some (maxStr, _, rest2) =>
                match parseNatRust maxStr with
                | none => none
                | some mx =>
                  match injectMod stack (Mod.Range mn mx) with
                  | none => none
                  | some stack' =>
                    parseLoop rawLen fuel stack' ops needAnd (idx + 1) rest2
      else if isAsciiAlphanumeric c || c = '.' then
        parseLoop rawLen fuel (PatternSection.Char c Mod.One :: stack)
          (if needAnd then Op.And :: ops else ops) true (idx + 1) rest
      else none

/-- `Parser::parse` (parser.rs): run the character loop, collapse the
remaining operators, and require an empty operator stack and at most
one value (the final `assert!`s); `none` models every parser panic
(the `SyntaxError` surface). -/
def parse (raw : List Char) : Option PatternSection :=
  match parseLoop (byteLen raw) raw.length [] [] false 0 raw with
  | none => none
  | some (stack, ops) =>
    match collapseStacks (fun o => o.isNone) (ops.length + 1) stack ops with
    | none => none
    | some (stack', ops') =>
      if ops'.isEmpty && stack'.length ≤ 1 then
        some ((stack'.head?).getD (PatternSection.And [] Mod.One))
      else none

/-- `PatternSection::to_transition_char` (types.rs). -/
def toTransitionChar (c : Char) (start next : Nat) : Transition × Nat :=
  (Transition.new.insertBase (start, some c) next, next)

/-- `PatternSection::to_transition_char_group` (types.rs). -/
def toTransitionCharGroup (chars : List Char) (isNegated : Bool)
    (start next : Nat) : Transition × Nat :=
  if isNegated then (Transition.new.insertNegated start chars next, next)
  else (chars.foldl (fun t c => t.insertBase (start, some c) next)
          Transition.new, next)

mutual

/-- `PatternSection::to_transition` (types.rs, lines 117–163): lower a
node, then wrap it according to its quantifier.  `none` models the
`assert!(*max >= 1)` panic in the `Mod::Range` branch. -/
def toTransition (p : PatternSection) (start next : Nat) :
    Option (Transition × Nat) :=
  match toTransitionWithoutMod p start next with
  | none => none
  | some (states, newEnd) =>
    let out := Transition.new.merge states
    match p.getMod with
    | Mod.One => some (out, newEnd)
    | Mod.ZeroOrOne => some (out.insertBase (start, none) newEnd, newEnd)
    | Mod.OneOrMore => some (out.insertBase (newEnd, none) start, newEnd)
    | Mod.Any =>
      some ((out.insertBase (newEnd, none) start).insertBase
              (start, none) (newEnd + 1), newEnd + 1)
    | Mod.Range mn mx =>
      if 1 ≤ mx then
        match toTransitionRangeLoop p mn 1 mx out newEnd
            (if mn = 0 then [start] else []) with
        | none => none
        | some (out2, end2, skips) =>
          some (skips.foldl (fun t sk => t.insertBase (sk, none) end2) out2,
                end2)
      else none
termination_by (sizeOf p, 2, 0)

/-- The `for i in 1..*max` loop of the `Mod::Range` branch: re-lower
the unwrapped node, chaining ends and collecting skip-eligible states. -/
def toTransitionRangeLoop (p : PatternSection) (mn i mx : Nat)
    (out : Transition) (e : Nat) (skips : List Nat) :
    Option (Transition × Nat × List Nat) :=
  if _h : i < mx then
    let skips' := if mn ≤ i then skips ++ [e] else skips
    match toTransitionWithoutMod p e (e + 1) with
    | none => none
    | some (states, newEnd) =>
      toTransitionRangeLoop p mn (i + 1) mx (out.merge states) newEnd skips'
  else some (out, e, skips)
termination_by (sizeOf p, 1, mx - i)

/-- `PatternSection::to_transition_without_mod` (types.rs). -/
def toTransitionWithoutMod (p : PatternSection) (start next : Nat) :
    Option (Transition × Nat) :=
  match p with
  | .And list _ => toTransitionAndGo list Transition.new start next
  | .Or list _ =>
    match toTransitionOrGo list start Transition.new next start [] with
    | none => none
    | some (out, latest, ends) =>
      some (ends.foldl (fun t pe => t.insertBase (pe, none) (latest + 1)) out,
            latest + 1)
  | .Char c _ => some (toTransitionChar c start next)
  | .CharGroup cs _ isNeg => some (toTransitionCharGroup cs isNeg start next)
termination_by (sizeOf p, 0, 0)

/-- The child loop of `PatternSection::to_transition_and`: thread each
child's end state into the next child's start. -/
def toTransitionAndGo (list : List PatternSection) (out : Transition)
    (e nn : Nat) : Option (Transition × Nat) :=
  match list with
  | [] => some (out, e)
  | x :: xs =>
    match toTransition x e nn with
    | none => none
    | some (states, newEnd) =>
      toTransitionAndGo xs (out.merge states) newEnd (newEnd + 1)
termination_by (sizeOf list, 3, 0)

/-- The child loop of `PatternSection::to_transition_or`: lower every
child from the same start, collecting the children's end states. -/
def toTransitionOrGo (list : List PatternSection) (start : Nat)
    (out : Transition) (nn latest : Nat) (ends : List Nat) :
    Option (Transition × Nat × List Nat) :=
  match list with
  | [] => some (out, latest, ends)
  | x :: xs =>
    match toTransition x start nn with
    | none => none
    | some (states, newEnd) =>
      toTransitionOrGo xs start (out.merge states) (newEnd + 1) newEnd
        (ends ++ [newEnd])
termination_by (sizeOf list, 3, 0)

end

/-- `Engine::new` (engine.rs): parse the pattern and compile the tree
from start state `0` with next-state hint `1`; yields the transition
table and the finish state. -/
def engineNew (pat : List Char) : Option (Transition × Nat) :=
  match parse pat with
  | none => none
  | some p => toTransition p 0 1

/-- `Engine::new(pat).is_match(s)` returns `true`: the engine builds
and its search accepts. -/
def acceptsPattern (pat s : List Char) : Prop :=
  ∃ tf : Transition × Nat, engineNew pat = some tf ∧ engineAccepts tf.1 tf.2 s

/-! ### Concrete automata and specification-side shapes used by the
claims below -/

/-- The pattern `"(a*b*)*"`. -/
def c1Pattern : List Char := ['(', 'a', '*', 'b', '*', ')', '*']

/-- The transition table `Engine::new("(a*b*)*")` builds (finish = 5). -/
def c1T : Transition :=
  ⟨[((0, some 'a'), [1]), ((1, none), [0]), ((0, none), [2, 5]),
    ((2, some 'b'), [3]), ((3, none), [2]), ((2, none), [4]),
    ((4, none), [0])], []⟩

/-- The transition table `Engine::new("a|b")` builds (finish = 3). -/
def c7T : Transition :=
  ⟨[((0, some 'a'), [1]), ((0, some 'b'), [2]), ((1, none), [3]),
    ((2, none), [3])], []⟩

/-- The transition table `Engine::new("a{2,3}")` builds (finish = 3). -/
def c4T : Transition :=
  ⟨[((0, some 'a'), [1]), ((1, some 'a'), [2]), ((2, some 'a'), [3]),
    ((2, none), [3])], []⟩

/-- The transition table shared by `"aaa"`, `"(aa)a"`, `"a(a)a"` and
`"aa(a)"` (finish = 3). -/
def c8T : Transition :=
  ⟨[((0, some 'a'), [1]), ((1, some 'a'), [2]), ((2, some 'a'), [3])], []⟩

/-- The work stacks that can arise while `Engine::is_match` runs on
`chars`: the seed stack `[(0, 0)]`, and the effect of one loop
iteration (pop the top, push its successors). -/
inductive ReachableStack (t : Transition) (chars : List Char) :
    List (Nat × Nat) → Prop where
  | init : ReachableStack t chars [(0, 0)]
  | step (s i : Nat) (rest : List (Nat × Nat)) :
      ReachableStack t chars ((s, i) :: rest) →
      ReachableStack t chars
        ((statesFrom t s (chars.get? i) i).reverse ++ rest)

/-- The character set named by the spec's parser contract. -/
def allowedChar (c : Char) : Prop :=
  isAsciiAlphanumeric c = true ∨
    c ∈ ['.', '|', '(', ')', '[', ']', '^', '?', '+', '*', '{', '}', ',']

instance (c : Char) : Decidable (allowedChar c) := by
  unfold allowedChar
  infer_instance

/-- The chain-automaton base table of a literal pattern `cs` rooted at
state `k`: one consuming edge per character, `k+i --cs[i]--> k+i+1`. -/
def chainBase : List Char → Nat → List ((Nat × Option Char) × List Nat)
  | [], _ => []
  | c :: rest, k => ((k, some c), [k + 1]) :: chainBase rest (k + 1)

/-- The automaton `Engine::new` builds for a literal pattern `cs`. -/
def chainT (cs : List Char) : Transition := ⟨chainBase cs 0, []⟩

/-- The tree `Parser::parse` returns for a pattern made only of term
characters: an empty `And` for `""`, a bare `Char` for one character,
an `And` of `Char`s otherwise. -/
def literalPattern (cs : List Char) : PatternSection :=
  match cs with
  | [] => PatternSection.And [] Mod.One
  | [c] => PatternSection.Char c Mod.One
  | _ =>
    PatternSection.And (cs.map (fun c => PatternSection.Char c Mod.One))
      Mod.One

/-! ### Generic facts about the matcher loop -/

theorem isMatchLoop_nil (t : Transition) (fin : Nat) (chars : List Char)
    (fuel : Nat) : isMatchLoop t fin chars fuel [] = some false := by
  cases fuel <;> rfl

/-- A result reached within some budget is stable under any larger
budget: the search is deterministic, fuel only cuts it short. -/
theorem isMatchLoop_mono {t : Transition} {fin : Nat} {chars : List Char} :
    ∀ {fuel1 fuel2 : Nat} {stack : List (Nat × Nat)} {b : Bool},
      fuel1 ≤ fuel2 →
      isMatchLoop t fin chars fuel1 stack = some b →
      isMatchLoop t fin chars fuel2 stack = some b := by
  intro fuel1
  induction fuel1 with
  | zero =>
    intro fuel2 stack b _ h
    cases stack with
    | nil => rw [isMatchLoop_nil] at h ⊢; exact h
    | cons hd tl => exact absurd h (by simp [isMatchLoop])
  | succ n ih =>
    intro fuel2 stack b hle h
    cases stack with
    | nil => rw [isMatchLoop_nil] at h ⊢; exact h
    | cons hd tl =>
      obtain ⟨s, i⟩ := hd
      obtain ⟨m, rfl⟩ : ∃ m, fuel2 = m + 1 :=
        ⟨fuel2 - 1, by omega⟩
      rw [isMatchLoop] at h ⊢
      by_cases hc : s = fin ∧ chars.length ≤ i
      · rw [if_pos hc] at h ⊢; exact h
      · rw [if_neg hc] at h ⊢
        exact ih (by omega) h

/-- Two terminating runs agree, so a single run determines
`engineAccepts` completely. -/
theorem engineAccepts_iff_run {t : Transition} {fin : Nat}
    {chars : List Char} {fuel : Nat} {b : Bool}
    (h : isMatchLoop t fin chars fuel [(0, 0)] = some b) :
    engineAccepts t fin chars ↔ b = true := by
  constructor
  · rintro ⟨f2, h2⟩
    rcases Nat.le_total fuel f2 with hle | hle
    · have h' := isMatchLoop_mono hle h
      rw [h'] at h2
      exact (Option.some.injEq _ _ ▸ h2).symm ▸ rfl
    · have h' := isMatchLoop_mono hle h2
      rw [h] at h'
      cases h'
      rfl
  · intro hb
    exact ⟨fuel, hb ▸ h⟩

/-! ### C1: the pattern `(a*b*)*` compiles, but `is_match` diverges on
input `"c"` — the compiled automaton has the epsilon cycle
`0 → 2 → 4 → 0`, and the matcher has no visited-set. -/

set_option maxRecDepth 8000 in
theorem c1_engine : engineNew c1Pattern = some (c1T, 5) := by
  show toTransition
      (PatternSection.And
        [PatternSection.Char 'a' Mod.Any, PatternSection.Char 'b' Mod.Any]
        Mod.Any) 0 1 = some (c1T, 5)
  simp [toTransition, toTransitionWithoutMod, toTransitionAndGo,
    toTransitionChar, Transition.merge, Transition.new, Transition.insertBase,
    insAppend, PatternSection.getMod, c1T]

/-- On input `"c"` the work stack returns to `[(0, 0)]` every four
iterations: `[(0,0)] → [(5,0),(2,0)] → [(2,0)] → [(4,0)] → [(0,0)]`. -/
theorem c1_cycle (m : Nat) :
    isMatchLoop c1T 5 ['c'] (m + 4) [(0, 0)] =
      isMatchLoop c1T 5 ['c'] m [(0, 0)] := rfl

theorem c1_noTermination :
    ∀ n, isMatchLoop c1T 5 ['c'] n [(0, 0)] = none := by
  intro n
  induction n using Nat.strong_induction_on with
  | _ n ih =>
    match n with
    | 0 => rfl
    | 1 => rfl
    | 2 => rfl
    | 3 => rfl
    | m + 4 => rw [c1_cycle]; exact ih m (by omega)

/-- C1 is false as stated: `"(a*b*)*"` is accepted by the parser and
compiled by `Engine::new`, yet `is_match` on the candidate `"c"` never
terminates (every step budget is exhausted with the stack nonempty). -/
theorem c1_counterexample :
    engineNew c1Pattern = some (c1T, 5) ∧ ¬ isMatchTerminates c1T 5 ['c'] := by
  refine ⟨c1_engine, ?_⟩
  rintro ⟨fuel, b, h⟩
  rw [c1_noTermination] at h
  exact Option.noConfusion h

/-- C1 amended: no error ever originates from the matcher — whenever
the search loop completes within some step budget it yields a boolean,
and that boolean is stable under every larger budget; termination
itself, however, is not guaranteed for all parser-accepted patterns
(see `c1_counterexample`). -/
theorem c1_result_stable (t : Transition) (fin : Nat) (chars : List Char)
    (f1 f2 : Nat) (b : Bool) (hle : f1 ≤ f2)
    (h : isMatchLoop t fin chars f1 [(0, 0)] = some b) :
    isMatchLoop t fin chars f2 [(0, 0)] = some b :=
  isMatchLoop_mono hle h

theorem c1_result_stable_witness :
    isMatchLoop Transition.new 0 [] 2 [(0, 0)] = some true :=
  c1_result_stable Transition.new 0 [] 1 2 true (by omega) rfl

/-! ### C7: alternation `"a|b"` accepts exactly `"a"` and `"b"` -/

theorem c7_engine : engineNew ['a', '|', 'b'] = some (c7T, 3) := by
  show toTransition
      (PatternSection.Or
        [PatternSection.Char 'a' Mod.One, PatternSection.Char 'b' Mod.One]
        Mod.One) 0 1 = some (c7T, 3)
  simp [toTransition, toTransitionWithoutMod, toTransitionOrGo,
    toTransitionChar, Transition.merge, Transition.new, Transition.insertBase,
    insAppend, PatternSection.getMod, c7T]

theorem c7_accepts (s : List Char) :
    engineAccepts c7T 3 s ↔ (s = ['a'] ∨ s = ['b']) := by
  match s with
  | [] =>
    have hrun : isMatchLoop c7T 3 [] 1 [(0, 0)] = some false := rfl
    rw [engineAccepts_iff_run hrun]
    simp
  | [c] =>
    by_cases h : c = 'a'
    · subst h
      have hrun : isMatchLoop c7T 3 ['a'] 3 [(0, 0)] = some true := rfl
      rw [engineAccepts_iff_run hrun]
      simp
    · by_cases h2 : c = 'b'
      · subst h2
        have hrun : isMatchLoop c7T 3 ['b'] 3 [(0, 0)] = some true := rfl
        rw [engineAccepts_iff_run hrun]
        simp
      · have hrun : isMatchLoop c7T 3 [c] 2 [(0, 0)] = some false := by
          simp [isMatchLoop, statesFrom, lookupAssoc, c7T, Ne.symm h,
            Ne.symm h2]
        rw [engineAccepts_iff_run hrun]
        simp [h, h2]
  | c1 :: c2 :: rest =>
    by_cases h : c1 = 'a'
    · subst h
      have hrun :
          isMatchLoop c7T 3 ('a' :: c2 :: rest) 4 [(0, 0)] = some false := by
        simp [isMatchLoop, statesFrom, lookupAssoc, c7T]
      rw [engineAccepts_iff_run hrun]
      simp
    · by_cases h2 : c1 = 'b'
      · subst h2
        have hrun :
            isMatchLoop c7T 3 ('b' :: c2 :: rest) 4 [(0, 0)] = some false := by
          simp [isMatchLoop, statesFrom, lookupAssoc, c7T]
        rw [engineAccepts_iff_run hrun]
        simp
      · have hrun :
            isMatchLoop c7T 3 (c1 :: c2 :: rest) 2 [(0, 0)] = some false := by
          simp [isMatchLoop, statesFrom, lookupAssoc, c7T, Ne.symm h,
            Ne.symm h2]
        rw [engineAccepts_iff_run hrun]
        simp [h, h2]

/-- C7: alternation is exactly the union of its branches —
`Engine::new("a|b").is_match(s)` holds iff `s = "a"` or `s = "b"`. -/
theorem c7_alternation_union :
    engineNew ['a', '|', 'b'] = some (c7T, 3) ∧
      ∀ s : List Char, (engineAccepts c7T 3 s ↔ (s = ['a'] ∨ s = ['b'])) :=
  ⟨c7_engine, c7_accepts⟩

/-! ### C4: `"a{2,3}"` accepts exactly `"aa"` and `"aaa"` -/

theorem c4_engine :
    engineNew ['a', '{', '2', ',', '3', '}'] = some (c4T, 3) := by
  show toTransition (PatternSection.Char 'a' (Mod.Range 2 3)) 0 1 =
    some (c4T, 3)
  simp [toTransition, toTransitionWithoutMod, toTransitionRangeLoop,
    toTransitionChar, Transition.merge, Transition.new, Transition.insertBase,
    insAppend, PatternSection.getMod, c4T]

theorem c4_accepts (s : List Char) :
    engineAccepts c4T 3 s ↔ (s = ['a', 'a'] ∨ s = ['a', 'a', 'a']) := by
  match s with
  | [] =>
    have hrun : isMatchLoop c4T 3 [] 1 [(0, 0)] = some false := rfl
    rw [engineAccepts_iff_run hrun]
    simp
  | [c1] =>
    by_cases h1 : c1 = 'a'
    · subst h1
      have hrun : isMatchLoop c4T 3 ['a'] 2 [(0, 0)] = some false := rfl
      rw [engineAccepts_iff_run hrun]
      simp
    · have hrun : isMatchLoop c4T 3 [c1] 1 [(0, 0)] = some false := by
        simp [isMatchLoop, statesFrom, lookupAssoc, c4T, Ne.symm h1]
      rw [engineAccepts_iff_run hrun]
      simp [h1]
  | [c1, c2] =>
    by_cases h1 : c1 = 'a'
    · subst h1
      by_cases h2 : c2 = 'a'
      · subst h2
        have hrun : isMatchLoop c4T 3 ['a', 'a'] 4 [(0, 0)] = some true := rfl
        rw [engineAccepts_iff_run hrun]
        simp
      · have hrun : isMatchLoop c4T 3 ['a', c2] 2 [(0, 0)] = some false := by
          simp [isMatchLoop, statesFrom, lookupAssoc, c4T, Ne.symm h2]
        rw [engineAccepts_iff_run hrun]
        simp [h2]
    · have hrun : isMatchLoop c4T 3 [c1, c2] 1 [(0, 0)] = some false := by
        simp [isMatchLoop, statesFrom, lookupAssoc, c4T, Ne.symm h1]
      rw [engineAccepts_iff_run hrun]
      simp [h1]
  | [c1, c2, c3] =>
    by_cases h1 : c1 = 'a'
    · subst h1
      by_cases h2 : c2 = 'a'
      · subst h2
        by_cases h3 : c3 = 'a'
        · subst h3
          have hrun :
              isMatchLoop c4T 3 ['a', 'a', 'a'] 6 [(0, 0)] = some true := rfl
          rw [engineAccepts_iff_run hrun]
          simp
        · have hrun :
              isMatchLoop c4T 3 ['a', 'a', c3] 5 [(0, 0)] = some false := by
            simp [isMatchLoop, statesFrom, lookupAssoc, c4T, Ne.symm h3]
          rw [engineAccepts_iff_run hrun]
          simp [h3]
      · have hrun :
            isMatchLoop c4T 3 ['a', c2, c3] 2 [(0, 0)] = some false := by
          simp [isMatchLoop, statesFrom, lookupAssoc, c4T, Ne.symm h2]
        rw [engineAccepts_iff_run hrun]
        simp [h2]
    · have hrun : isMatchLoop c4T 3 [c1, c2, c3] 1 [(0, 0)] = some false := by
        simp [isMatchLoop, statesFrom, lookupAssoc, c4T, Ne.symm h1]
      rw [engineAccepts_iff_run hrun]
      simp [h1]
  | c1 :: c2 :: c3 :: c4 :: t =>
    by_cases h1 : c1 = 'a'
    · subst h1
      by_cases h2 : c2 = 'a'
      · subst h2
        by_cases h3 : c3 = 'a'
        · subst h3
          have hrun :
              isMatchLoop c4T 3 ('a' :: 'a' :: 'a' :: c4 :: t) 6 [(0, 0)] =
                some false := by
            simp [isMatchLoop, statesFrom, lookupAssoc, c4T]
          rw [engineAccepts_iff_run hrun]
          simp
        · have hrun :
              isMatchLoop c4T 3 ('a' :: 'a' :: c3 :: c4 :: t) 4 [(0, 0)] =
                some false := by
            simp [isMatchLoop, statesFrom, lookupAssoc, c4T, Ne.symm h3]
          rw [engineAccepts_iff_run hrun]
          simp [h3]
      · have hrun :
            isMatchLoop c4T 3 ('a' :: c2 :: c3 :: c4 :: t) 2 [(0, 0)] =
              some false := by
          simp [isMatchLoop, statesFrom, lookupAssoc, c4T, Ne.symm h2]
        rw [engineAccepts_iff_run hrun]
        simp [h2]
    · have hrun :
          isMatchLoop c4T 3 (c1 :: c2 :: c3 :: c4 :: t) 1 [(0, 0)] =
            some false := by
        simp [isMatchLoop, statesFrom, lookupAssoc, c4T, Ne.symm h1]
      rw [engineAccepts_iff_run hrun]
      simp [h1]

/-- C4: `Engine::new("a{2,3}").is_match(s)` holds iff `s = "aa"` or
`s = "aaa"`; in particular `"a"` and `"aaaa"` are rejected. -/
theorem c4_range_bounds :
    engineNew ['a', '{', '2', ',', '3', '}'] = some (c4T, 3) ∧
      ∀ s : List Char,
        (engineAccepts c4T 3 s ↔ (s = ['a', 'a'] ∨ s = ['a', 'a', 'a'])) :=
  ⟨c4_engine, c4_accepts⟩

/-! ### C8: grouping is transparent — `"(aa)a"`, `"a(a)a"`, `"aa(a)"`
all compile to the very same automaton as `"aaa"` -/

theorem c8_engine_aaa : engineNew ['a', 'a', 'a'] = some (c8T, 3) := by
  show toTransition
      (PatternSection.And
        [PatternSection.Char 'a' Mod.One, PatternSection.Char 'a' Mod.One,
         PatternSection.Char 'a' Mod.One] Mod.One) 0 1 = some (c8T, 3)
  simp [toTransition, toTransitionWithoutMod, toTransitionAndGo,
    toTransitionChar, Transition.merge, Transition.new, Transition.insertBase,
    insAppend, PatternSection.getMod, c8T]

theorem c8_engine_group_front :
    engineNew ['(', 'a', 'a', ')', 'a'] = some (c8T, 3) := by
  show toTransition
      (PatternSection.And
        [PatternSection.And
          [PatternSection.Char 'a' Mod.One, PatternSection.Char 'a' Mod.One]
          Mod.One,
         PatternSection.Char 'a' Mod.One] Mod.One) 0 1 = some (c8T, 3)
  simp [toTransition, toTransitionWithoutMod, toTransitionAndGo,
    toTransitionChar, Transition.merge, Transition.new, Transition.insertBase,
    insAppend, PatternSection.getMod, c8T]

theorem c8_engine_group_mid :
    engineNew ['a', '(', 'a', ')', 'a'] = some (c8T, 3) := by
  show toTransition
      (PatternSection.And
        [PatternSection.Char 'a' Mod.One, PatternSection.Char 'a' Mod.One,
         PatternSection.Char 'a' Mod.One] Mod.One) 0 1 = some (c8T, 3)
  simp [toTransition, toTransitionWithoutMod, toTransitionAndGo,
    toTransitionChar, Transition.merge, Transition.new, Transition.insertBase,
    insAppend, PatternSection.getMod, c8T]

theorem c8_engine_group_back :
    engineNew ['a', 'a', '(', 'a', ')'] = some (c8T, 3) := by
  show toTransition
      (PatternSection.And
        [PatternSection.Char 'a' Mod.One, PatternSection.Char 'a' Mod.One,
         PatternSection.Char 'a' Mod.One] Mod.One) 0 1 = some (c8T, 3)
  simp [toTransition, toTransitionWithoutMod, toTransitionAndGo,
    toTransitionChar, Transition.merge, Transition.new, Transition.insertBase,
    insAppend, PatternSection.getMod, c8T]

/-- C8: grouping is semantically transparent — on every candidate
string, the engines built from `"(aa)a"`, `"a(a)a"` and `"aa(a)"`
answer `is_match` exactly like the engine built from `"aaa"` (indeed
all four compile to the same transition table and finish state). -/
theorem c8_grouping_transparent :
    ∀ s : List Char,
      (acceptsPattern ['(', 'a', 'a', ')', 'a'] s ↔
        acceptsPattern ['a', 'a', 'a'] s) ∧
      (acceptsPattern ['a', '(', 'a', ')', 'a'] s ↔
        acceptsPattern ['a', 'a', 'a'] s) ∧
      (acceptsPattern ['a', 'a', '(', 'a', ')'] s ↔
        acceptsPattern ['a', 'a', 'a'] s) := by
  intro s
  refine ⟨?_, ?_, ?_⟩ <;>
    simp [acceptsPattern, c8_engine_aaa, c8_engine_group_front,
      c8_engine_group_mid, c8_engine_group_back]

/-! ### C10: work-stack offsets never exceed the input length -/

/-- Offsets produced by `states_from`: epsilon edges keep the offset,
consuming edges advance it by one and exist only when `c` is `some`
(i.e. when a character at the current offset exists). -/
theorem statesFrom_offset {t : Transition} {s i : Nat} {c : Option Char}
    {q : Nat × Nat} (hq : q ∈ statesFrom t s c i) :
    q.2 = i ∨ (c.isSome ∧ q.2 = i + 1) := by
  cases c with
  | none =>
    simp only [statesFrom] at hq
    rcases List.mem_append.mp hq with h | h
    · exact absurd h (List.not_mem_nil q)
    · obtain ⟨ns, _, rfl⟩ := List.mem_map.mp h
      exact Or.inl rfl
  | some ch =>
    simp only [statesFrom] at hq
    rcases List.mem_append.mp hq with h | h
    · rcases List.mem_append.mp h with h | h
      · rcases List.mem_append.mp h with h | h
        · obtain ⟨ns, _, rfl⟩ := List.mem_map.mp h
          exact Or.inr ⟨rfl, rfl⟩
        · obtain ⟨ns, _, rfl⟩ := List.mem_map.mp h
          exact Or.inr ⟨rfl, rfl⟩
      · obtain ⟨l, hl, hql⟩ := List.mem_flatten.mp h
        obtain ⟨e, _, rfl⟩ := List.mem_map.mp hl
        by_cases hin : ch ∈ e.1
        · rw [if_pos hin] at hql
          exact absurd hql (List.not_mem_nil q)
        · rw [if_neg hin] at hql
          obtain ⟨ns, _, rfl⟩ := List.mem_map.mp hql
          exact Or.inr ⟨rfl, rfl⟩
    · obtain ⟨ns, _, rfl⟩ := List.mem_map.mp h
      exact Or.inl rfl

/-- C10: on every stack the matcher can reach, every `(state, offset)`
pair satisfies `offset ≤ input length`, so the acceptance test
`state == finish && offset >= len` can only fire with the offset
exactly equal to the input length. -/
theorem c10_offset_invariant (t : Transition) (chars : List Char)
    (stack : List (Nat × Nat)) (h : ReachableStack t chars stack) :
    ∀ p ∈ stack, p.2 ≤ chars.length ∧
      (chars.length ≤ p.2 → p.2 = chars.length) := by
  induction h with
  | init =>
    intro p hp
    simp at hp
    subst hp
    exact ⟨Nat.zero_le _, fun h => Nat.le_antisymm (Nat.zero_le _) h⟩
  | step s i rest hr ih =>
    intro p hp
    rcases List.mem_append.mp hp with hmem | hmem
    · have hi : i ≤ chars.length := (ih (s, i) (by simp)).1
      rcases statesFrom_offset (List.mem_reverse.mp hmem) with h1 | ⟨hsome, h2⟩
      · omega
      · have hlt : i < chars.length := by
          by_contra hcon
          push_neg at hcon
          rw [List.get?_eq_none.mpr hcon] at hsome
          cases hsome
        omega
    · exact ih p (List.mem_cons_of_mem _ hmem)

theorem c10_offset_invariant_witness :
    ((0, 0) : Nat × Nat).2 ≤ (['x'] : List Char).length ∧
      ((['x'] : List Char).length ≤ ((0, 0) : Nat × Nat).2 →
        ((0, 0) : Nat × Nat).2 = (['x'] : List Char).length) :=
  c10_offset_invariant Transition.new ['x'] [(0, 0)] ReachableStack.init
    (0, 0) (by simp)

/-! ### C5: the parser does NOT establish `min ≤ max`, `max ≥ 1` for
`Range` — `"a{0}"` parses to `Range(0, 0)` and then trips the
compiler's own `assert!(*max >= 1)` -/

/-- C5 fails on the code: `parse("a{0}")` succeeds and returns
`Char('a', Range(0, 0))` whose quantifier violates `max ≥ 1`; the
compiler's `assert!(*max >= 1)` then panics inside `Engine::new`
(modelled as `toTransition` returning `none`), contradicting the
code's own assertion about parser output. -/
theorem c5_range_not_validated :
    parse ['a', '{', '0', '}'] =
      some (PatternSection.Char 'a' (Mod.Range 0 0)) ∧
    ¬ 1 ≤ (0 : Nat) ∧
    toTransition (PatternSection.Char 'a' (Mod.Range 0 0)) 0 1 = none := by
  refine ⟨rfl, by omega, ?_⟩
  simp [toTransition, toTransitionWithoutMod, toTransitionChar,
    PatternSection.getMod]

/-! ### C6: rejection of unexpected characters and malformed syntax -/

/-- C6 is false as stated: `"[$]"` contains `'$'`, a character outside
the allowed set, yet the parser accepts it — inside `[...]` characters
are consumed verbatim by the class scanner. -/
theorem c6_counterexample :
    parse ['[', '$', ']'] =
      some (PatternSection.CharGroup ['$'] Mod.One false) ∧
    ¬ allowedChar '$' := ⟨rfl, by decide⟩

theorem scanUntil_none {stop : Char → Bool} {l : List Char}
    (h : ∀ x ∈ l, stop x = false) : scanUntil stop l = none := by
  induction l with
  | nil => rfl
  | cons c rest ih =>
    rw [scanUntil, h c (List.mem_cons_self c rest)]
    rw [ih (fun x hx => h x (List.mem_cons_of_mem c hx))]
    rfl

theorem scanCharGroup_none {l : List Char} (h : ']' ∉ l) :
    scanCharGroup l = none := by
  match l with
  | [] => rfl
  | c :: rest =>
    rw [scanCharGroup]
    have hrest : ∀ x ∈ rest, (fun x => decide (x = ']')) x = false := by
      intro x hx
      simp only [decide_eq_false_iff_not]
      exact fun heq => h (heq ▸ List.mem_cons_of_mem c hx)
    have hall : ∀ x ∈ c :: rest, (fun x => decide (x = ']')) x = false := by
      intro x hx
      simp only [decide_eq_false_iff_not]
      exact fun heq => h (heq ▸ hx)
    by_cases hc : c = '^'
    · rw [if_pos hc, scanUntil_none hrest]
      rfl
    · rw [if_neg hc, scanUntil_none hall]
      rfl

/-- One loop iteration on a character outside the allowed set takes the
final `else` branch — the `panic!("Unexpected character error")`. -/
theorem parseLoop_unallowed {c : Char} (hna : ¬ allowedChar c)
    (rl fuel : Nat) (stack : List PatternSection) (ops : List Op)
    (na : Bool) (idx : Nat) (rest : List Char) :
    parseLoop rl (fuel + 1) stack ops na idx (c :: rest) = none := by
  have hq : c ≠ '?' := fun h => hna (h ▸ (by decide))
  have hp : c ≠ '+' := fun h => hna (h ▸ (by decide))
  have hs : c ≠ '*' := fun h => hna (h ▸ (by decide))
  have hmod : Mod.fromChar c = none := by
    rw [Mod.fromChar, if_neg hq, if_neg hp, if_neg hs]
  have h1 : c ≠ '|' := fun h => hna (h ▸ (by decide))
  have h2 : c ≠ '(' := fun h => hna (h ▸ (by decide))
  have h3 : c ≠ ')' := fun h => hna (h ▸ (by decide))
  have h4 : c ≠ '[' := fun h => hna (h ▸ (by decide))
  have h5 : c ≠ '{' := fun h => hna (h ▸ (by decide))
  have h6 : isAsciiAlphanumeric c ≠ true := fun h => hna (Or.inl h)
  have h7 : c ≠ '.' := fun h => hna (h ▸ (by decide))
  simp [parseLoop, hmod, h1, h2, h3, h4, h5, h6, h7]

/-- The `'['` branch fails when no `']'` follows. -/
theorem parseLoop_unterminated_class (rl fuel : Nat)
    (stack : List PatternSection) (ops : List Op) (na : Bool) (idx : Nat)
    {rest : List Char} (h : ']' ∉ rest) :
    parseLoop rl (fuel + 1) stack ops na idx ('[' :: rest) = none := by
  simp [parseLoop, Mod.fromChar, scanCharGroup_none h]

/-- C6 amended: a character outside the allowed set fails the parser
when the main loop scans it (shown here for the first position; inside
`[...]` such characters are consumed verbatim, see
`c6_counterexample`); an unterminated `'['` class fails, as do an
unterminated `'{'` range and a non-numeric bound. -/
theorem c6_rejects :
    (∀ (c : Char) (rest : List Char), ¬ allowedChar c →
      parse (c :: rest) = none) ∧
    (∀ rest : List Char, ']' ∉ rest → parse ('[' :: rest) = none) ∧
    parse ['a', '{', '2'] = none ∧
    parse ['a', '{', 'x', '}'] = none := by
  refine ⟨?_, ?_, rfl, rfl⟩
  · intro c rest hna
    have hstep := parseLoop_unallowed hna (byteLen (c :: rest)) rest.length
      [] [] false 0 rest
    simp [parse, hstep]
  · intro rest h
    have hstep := parseLoop_unterminated_class (byteLen ('[' :: rest))
      rest.length [] [] false 0 h
    simp [parse, hstep]

theorem c6_rejects_witness :
    parse ['$'] = none ∧ parse ['[', 'a', 'b'] = none :=
  ⟨c6_rejects.1 '$' [] (by decide), c6_rejects.2.1 ['a', 'b'] (by decide)⟩

/-! ### C9: a quantifier with an empty value stack is a syntax error -/

/-- With an empty value stack, a `'?'`/`'+'`/`'*'` suffix fails in
`inject_mod`, and a `'{'` range fails either while scanning/parsing its
bounds or in `inject_mod` — in every case the parser dies. -/
theorem parseLoop_quant_empty (rl fuel : Nat) (ops : List Op) (na : Bool)
    (idx : Nat) (c : Char) (rest : List Char)
    (h : (Mod.fromChar c).isSome ∨ c = '{') :
    parseLoop rl fuel [] ops na idx (c :: rest) = none := by
  match fuel with
  | 0 => rfl
  | fuel + 1 =>
    rcases h with hq | hc
    · obtain ⟨m, hm⟩ := Option.isSome_iff_exists.mp hq
      simp [parseLoop, hm, injectMod]
    · subst hc
      cases h1 : scanUntil (fun x => x = ',' || x = '}') rest with
      | none => simp [parseLoop, Mod.fromChar, h1]
      | some r =>
        obtain ⟨minStr, stopc, rest1⟩ := r
        cases h2 : parseNatRust minStr with
        | none => simp [parseLoop, Mod.fromChar, h1, h2]
        | some mn =>
          by_cases h3 : stopc = '}'
          · simp [parseLoop, Mod.fromChar, h1, h2, h3, injectMod]
          · cases h4 : scanUntil (fun x => x = '}') rest1 with
            | none => simp [parseLoop, Mod.fromChar, h1, h2, h3, h4]
            | some r2 =>
              obtain ⟨maxStr, u, rest2⟩ := r2
              cases h5 : parseNatRust maxStr with
              | none => simp [parseLoop, Mod.fromChar, h1, h2, h3, h4, h5]
              | some mx =>
                simp [parseLoop, Mod.fromChar, h1, h2, h3, h4, h5, injectMod]

/-- C9: a quantifier suffix (`?`, `+`, `*`, or a `{...}` range) seen
while the parser's value stack is empty makes `Parser::parse` fail — in
particular at the very start of the pattern. -/
theorem c9_quantifier_needs_term :
    (∀ (rl fuel : Nat) (ops : List Op) (na : Bool) (idx : Nat) (c : Char)
        (rest : List Char), ((Mod.fromChar c).isSome ∨ c = '{') →
        parseLoop rl fuel [] ops na idx (c :: rest) = none) ∧
    ∀ (c : Char) (rest : List Char), ((Mod.fromChar c).isSome ∨ c = '{') →
      parse (c :: rest) = none := by
  refine ⟨fun rl fuel ops na idx c rest h =>
    parseLoop_quant_empty rl fuel ops na idx c rest h, ?_⟩
  intro c rest h
  have hstep := parseLoop_quant_empty (byteLen (c :: rest))
    (rest.length + 1) [] false 0 c rest h
  simp [parse, hstep]

theorem c9_quantifier_needs_term_witness :
    parse ['?', 'a'] = none ∧ parse ['{', '2', '}'] = none :=
  ⟨c9_quantifier_needs_term.2 '?' ['a'] (by decide),
   c9_quantifier_needs_term.2 '{' ['2', '}'] (by decide)⟩

/-! ### Association-list lemmas shared by the C2/C3 developments -/

theorem insAppend_fresh {κ ν : Type} [DecidableEq κ]
    {l : List (κ × List ν)} {k : κ} (h : ∀ e ∈ l, e.1 ≠ k) (vs : List ν) :
    insAppend l k vs = l ++ [(k, vs)] := by
  induction l with
  | nil => rfl
  | cons e rest ih =>
    obtain ⟨k0, vs0⟩ := e
    rw [insAppend, if_neg (h (k0, vs0) (List.mem_cons_self _ _))]
    rw [ih (fun e he => h e (List.mem_cons_of_mem _ he))]
    rfl

theorem foldl_insAppend_fresh {κ ν : Type} [DecidableEq κ] :
    ∀ (entries l : List (κ × List ν)),
      (∀ e ∈ entries, ∀ e' ∈ l, e'.1 ≠ e.1) →
      List.Pairwise (fun a b => a.1 ≠ b.1) entries →
      entries.foldl (fun b e => insAppend b e.1 e.2) l = l ++ entries := by
  intro entries
  induction entries with
  | nil => intro l _ _; simp
  | cons e rest ih =>
    intro l hfresh hpw
    have h1 : insAppend l e.1 e.2 = l ++ [(e.1, e.2)] :=
      insAppend_fresh (fun e' he' => hfresh e (List.mem_cons_self _ _) e' he') _
    have h2 : (e.1, e.2) = e := rfl
    rw [List.foldl_cons, h1, h2,
      ih (l ++ [e])
        (fun x hx e' he' => by
          rcases List.mem_append.mp he' with h' | h'
          · exact hfresh x (List.mem_cons_of_mem _ hx) e' h'
          · rcases List.mem_singleton.mp h' with rfl
            exact (List.pairwise_cons.mp hpw).1 x hx)
        (List.pairwise_cons.mp hpw).2]
    simp

/-! ### C2: literal (alphanumeric-only) patterns match exactly the
pattern string itself -/

theorem chainBase_key_lt : ∀ (cs : List Char) (k : Nat),
    ∀ e ∈ chainBase cs k, k ≤ e.1.1 ∧ e.1.1 < k + cs.length := by
  intro cs
  induction cs with
  | nil => intro k e he; cases he
  | cons c rest ih =>
    intro k e he
    rw [chainBase] at he
    rcases List.mem_cons.mp he with rfl | hmem
    · simp
    · have := ih (k + 1) e hmem
      constructor <;> [omega; (simp only [List.length_cons]; omega)]

theorem chainBase_pairwise (cs : List Char) (k : Nat) :
    List.Pairwise (fun (a b : (Nat × Option Char) × List Nat) => a.1 ≠ b.1)
      (chainBase cs k) := by
  induction cs generalizing k with
  | nil => exact List.Pairwise.nil
  | cons c rest ih =>
    rw [chainBase]
    refine List.pairwise_cons.mpr ⟨?_, ih (k + 1)⟩
    intro e he heq
    have := (chainBase_key_lt rest (k + 1) e he).1
    have : e.1.1 = k := by rw [← heq]
    omega

theorem toTransition_char_one (c : Char) (e nn : Nat) :
    toTransition (PatternSection.Char c Mod.One) e nn =
      some (⟨[((e, some c), [nn])], []⟩, nn) := by
  simp [toTransition, toTransitionWithoutMod, toTransitionChar,
    Transition.merge, Transition.new, Transition.insertBase, insAppend,
    PatternSection.getMod]

/-- Lowering the children of a literal `Sequence` threads the states
`k, k+1, k+2, …` and accumulates exactly the chain edges. -/
theorem andGo_chain :
    ∀ (cs : List Char) (B : List ((Nat × Option Char) × List Nat)) (k : Nat),
      (∀ e ∈ B, e.1.1 < k) →
      toTransitionAndGo (cs.map (fun c => PatternSection.Char c Mod.One))
          ⟨B, []⟩ k (k + 1) =
        some (⟨B ++ chainBase cs k, []⟩, k + cs.length) := by
  intro cs
  induction cs with
  | nil =>
    intro B k _
    simp [toTransitionAndGo, chainBase]
  | cons c rest ih =>
    intro B k hB
    have hmerge :
        Transition.merge ⟨B, []⟩ ⟨[((k, some c), [k + 1])], []⟩ =
          ⟨B ++ [((k, some c), [k + 1])], []⟩ := by
      rw [Transition.merge]
      simp only [List.foldl_cons, List.foldl_nil]
      rw [insAppend_fresh (fun e he heq => by
        have := hB e he
        have : e.1.1 = k := by rw [heq]
        omega)]
    simp only [List.map_cons, toTransitionAndGo, toTransition_char_one]
    rw [hmerge]
    rw [ih (B ++ [((k, some c), [k + 1])]) (k + 1)
      (fun e he => by
        rcases List.mem_append.mp he with h' | h'
        · have := hB e h'; omega
        · rcases List.mem_singleton.mp h' with rfl; simp)]
    rw [chainBase]
    simp only [List.length_cons]
    rw [List.append_assoc]
    norm_num
    omega

theorem merge_new_chainBase (cs : List Char) (k : Nat) :
    Transition.new.merge ⟨chainBase cs k, []⟩ = ⟨chainBase cs k, []⟩ := by
  have h := foldl_insAppend_fresh (chainBase cs k) []
    (by intro e _ e' he'; cases he') (chainBase_pairwise cs k)
  simp [Transition.merge, Transition.new, h]

theorem compile_literal (cs : List Char) :
    toTransition (literalPattern cs) 0 1 = some (chainT cs, cs.length) := by
  match cs with
  | [] =>
    simp [literalPattern, toTransition, toTransitionWithoutMod,
      toTransitionAndGo, Transition.merge, Transition.new,
      PatternSection.getMod, chainT, chainBase]
  | [c] =>
    rw [show literalPattern [c] = PatternSection.Char c Mod.One from rfl,
      toTransition_char_one]
    rfl
  | c1 :: c2 :: rest =>
    have hgo := andGo_chain (c1 :: c2 :: rest) [] 0 (by intro e he; cases he)
    simp only [Nat.zero_add, List.nil_append] at hgo
    rw [show literalPattern (c1 :: c2 :: rest) =
      PatternSection.And
        ((c1 :: c2 :: rest).map (fun c => PatternSection.Char c Mod.One))
        Mod.One from rfl]
    simp only [toTransition, toTransitionWithoutMod, Transition.new]
    rw [hgo]
    have hm := merge_new_chainBase (c1 :: c2 :: rest) 0
    simp only [Transition.new] at hm
    simp only [PatternSection.getMod, hm, chainT]

theorem alnum_char_facts {c : Char} (h : isAsciiAlphanumeric c = true) :
    Mod.fromChar c = none ∧ c ≠ '|' ∧ c ≠ '(' ∧ c ≠ ')' ∧ c ≠ '[' ∧
      c ≠ '{' := by
  have hq : c ≠ '?' := fun he => by subst he; exact absurd h (by decide)
  have hp : c ≠ '+' := fun he => by subst he; exact absurd h (by decide)
  have hs : c ≠ '*' := fun he => by subst he; exact absurd h (by decide)
  refine ⟨by rw [Mod.fromChar, if_neg hq, if_neg hp, if_neg hs], ?_, ?_, ?_,
    ?_, ?_⟩ <;>
    exact fun he => by subst he; exact absurd h (by decide)

/-- Scanning a run of term characters pushes one `Char` leaf per
character and one `Concat` operator per character after the first term
(per the `pending-concat` flag). -/
theorem parseLoop_alnum :
    ∀ (cs : List Char), (∀ c ∈ cs, isAsciiAlphanumeric c = true) →
    ∀ (fuel : Nat), cs.length ≤ fuel →
    ∀ (rl : Nat) (stack : List PatternSection) (ops : List Op) (na : Bool)
      (idx : Nat),
    parseLoop rl fuel stack ops na idx cs =
      some ((cs.map (fun c => PatternSection.Char c Mod.One)).reverse ++ stack,
        (List.replicate (if na then cs.length else cs.length - 1) Op.And)
          ++ ops) := by
  intro cs
  induction cs with
  | nil =>
    intro _ fuel _ rl stack ops na idx
    cases fuel <;> simp [parseLoop]
  | cons c rest ih =>
    intro hall fuel hfuel rl stack ops na idx
    obtain ⟨f, rfl⟩ : ∃ f, fuel = f + 1 :=
      ⟨fuel - 1, by simp at hfuel; omega⟩
    obtain ⟨hmod, h1, h2, h3, h4, h5⟩ :=
      alnum_char_facts (hall c (List.mem_cons_self c rest))
    have hlit : (isAsciiAlphanumeric c || c = '.') = true := by
      rw [hall c (List.mem_cons_self c rest)]; rfl
    rw [parseLoop, hmod]
    simp only [if_neg h1, if_neg h2, if_neg h3, if_neg h4, if_neg h5, hlit,
      if_pos rfl]
    rw [ih (fun x hx => hall x (List.mem_cons_of_mem c hx)) f
      (by simp at hfuel; omega) rl _ _ true (idx + 1)]
    cases na with
    | true =>
      simp [List.replicate_succ']
    | false =>
      simp

theorem popSame_replicate (m : Nat) :
    popSame (List.replicate (m + 1) Op.And) = (some Op.And, m + 1, []) := by
  have htw : (List.replicate (m + 1) Op.And).takeWhile
      (fun x => decide (x = Op.And)) = List.replicate (m + 1) Op.And :=
    List.takeWhile_eq_self_iff.mpr (fun x hx => by
      rw [List.eq_of_mem_replicate hx]; rfl)
  have hdw : (List.replicate (m + 1) Op.And).dropWhile
      (fun x => decide (x = Op.And)) = [] :=
    List.dropWhile_eq_nil_iff.mpr (fun x hx => by
      rw [List.eq_of_mem_replicate hx]; rfl)
  conv_lhs => rw [List.replicate_succ]
  rw [popSame, ← List.replicate_succ, htw, hdw]
  simp

/-- The final collapse of a pure-concatenation parse: the run of
`Concat` operators folds the whole value stack into one `Sequence`. -/
theorem collapse_replicate (ps : List PatternSection) (m : Nat)
    (hlen : ps.length = m + 2) :
    collapseStacks (fun o => o.isNone) (m + 1 + 1) ps
        (List.replicate (m + 1) Op.And) =
      some ([PatternSection.And ps.reverse Mod.One], []) := by
  have hh : (List.replicate (m + 1) Op.And).head? = some Op.And := by
    rw [List.replicate_succ]; rfl
  rw [collapseStacks, hh, popSame_replicate]
  simp only [Option.isNone_some, Bool.false_eq_true, if_false]
  rw [if_pos (by omega : m + 1 + 1 ≤ ps.length)]
  rw [List.take_of_length_le (by omega), List.drop_eq_nil_of_le (by omega)]
  cases m <;> rfl

theorem parse_alnum {cs : List Char}
    (h : ∀ c ∈ cs, isAsciiAlphanumeric c = true) :
    parse cs = some (literalPattern cs) := by
  match cs with
  | [] => rfl
  | [c] =>
    rw [parse, parseLoop_alnum [c] h [c].length (Nat.le_refl _) _ [] [] false 0]
    simp [collapseStacks, literalPattern]
  | c1 :: c2 :: rest =>
    rw [parse, parseLoop_alnum _ h _ (Nat.le_refl _) _ [] [] false 0]
    have hrep : (if false then (c1 :: c2 :: rest).length
        else (c1 :: c2 :: rest).length - 1) = rest.length + 1 := by simp
    rw [hrep]
    simp only [List.append_nil]
    have hcoll := collapse_replicate
      (((c1 :: c2 :: rest).map (fun c => PatternSection.Char c Mod.One)).reverse)
      rest.length (by simp)
    have hops : (List.replicate (rest.length + 1) Op.And).length + 1 =
        rest.length + 1 + 1 := by simp
    rw [hops, hcoll]
    simp [literalPattern]

theorem lookupAssoc_chainBase_some :
    ∀ (cs : List Char) (k st : Nat) (ch : Char),
      lookupAssoc (chainBase cs k) (st, some ch) =
        if k ≤ st ∧ cs.get? (st - k) = some ch then [st + 1] else [] := by
  intro cs
  induction cs with
  | nil =>
    intro k st ch
    rw [chainBase, lookupAssoc, if_neg]
    rintro ⟨-, hget⟩
    simp at hget
  | cons c rest ih =>
    intro k st ch
    rw [chainBase, lookupAssoc]
    by_cases heq : (k, (some c : Option Char)) = (st, some ch)
    · rw [Prod.mk.injEq] at heq
      obtain ⟨rfl, hc⟩ := heq
      have hc' := Option.some.inj hc
      subst hc'
      rw [if_pos rfl, if_pos ⟨Nat.le_refl k, by simp⟩]
    · rw [if_neg heq, ih (k + 1) st ch]
      by_cases h1 : k ≤ st
      · by_cases h2 : k = st
        · subst h2
          rw [if_neg (by omega), if_neg]
          rintro ⟨-, hg⟩
          rw [Nat.sub_self, List.get?_cons_zero] at hg
          exact heq (by rw [Option.some.inj hg])
        · have hsub : st - k = (st - (k + 1)) + 1 := by omega
          rw [hsub, List.get?_cons_succ]
          exact if_congr
            ⟨fun ⟨ha, hb⟩ => ⟨by omega, hb⟩, fun ⟨ha, hb⟩ => ⟨by omega, hb⟩⟩
            rfl rfl
      · rw [if_neg (by rintro ⟨ha, -⟩; omega),
          if_neg (by rintro ⟨ha, -⟩; omega)]

theorem lookupAssoc_chainBase_none :
    ∀ (cs : List Char) (k st : Nat),
      lookupAssoc (chainBase cs k) (st, none) = [] := by
  intro cs
  induction cs with
  | nil => intro k st; rfl
  | cons c rest ih =>
    intro k st
    rw [chainBase, lookupAssoc, if_neg (by simp), ih (k + 1) st]

/-- `states_from` on a chain automaton with no input character left:
no epsilon edges, so no successors at all. -/
theorem statesFrom_chain_none (cs : List Char) (st i : Nat) :
    statesFrom (chainT cs) st none i = [] := by
  simp [statesFrom, chainT, lookupAssoc_chainBase_none]

/-- `states_from` on a chain automaton (pattern without `'.'`): one
deterministic consuming edge per state, no wildcard interference, no
negated edges. -/
theorem statesFrom_chain_some {cs : List Char} (hdot : '.' ∉ cs)
    (st i : Nat) (ch : Char) :
    statesFrom (chainT cs) st (some ch) i =
      if cs.get? st = some ch then [(st + 1, i + 1)] else [] := by
  have hw : (cs[st]? = some '.') = False :=
    eq_false (fun h => hdot (List.getElem?_mem h))
  by_cases hm : cs[st]? = some ch
  · have hchd : ¬ ch = '.' := fun he => hw ▸ (he ▸ hm)
    simp [statesFrom, chainT, lookupAssoc_chainBase_some,
      lookupAssoc_chainBase_none, lookupAssoc, hw, hm, hchd]
  · simp [statesFrom, chainT, lookupAssoc_chainBase_some,
      lookupAssoc_chainBase_none, lookupAssoc, hw, hm]

/-- Running the matcher on a chain automaton from state `st` at offset
`st` decides exactly whether the remaining input equals the remaining
pattern characters. -/
theorem chain_loop {cs input : List Char} (hdot : '.' ∉ cs) :
    ∀ (fuel st : Nat), st ≤ cs.length → cs.length - st < fuel →
      isMatchLoop (chainT cs) cs.length input fuel [(st, st)] =
        some (decide (input.drop st = cs.drop st)) := by
  intro fuel
  induction fuel with
  | zero => intro st _ h; omega
  | succ f ih =>
    intro st hst hfuel
    rw [isMatchLoop]
    by_cases hacc : st = cs.length ∧ input.length ≤ st
    · rw [if_pos hacc]
      have h1 : input.drop st = [] := List.drop_eq_nil_iff.mpr hacc.2
      have h2 : cs.drop st = [] := List.drop_eq_nil_iff.mpr (by omega)
      rw [h1, h2]
      simp
    · rw [if_neg hacc]
      cases hc : input.get? st with
      | none =>
        rw [statesFrom_chain_none]
        simp only [List.reverse_nil, List.nil_append, isMatchLoop_nil]
        have hilen : input.length ≤ st := List.get?_eq_none.mp hc
        have h1 : input.drop st = [] := List.drop_eq_nil_iff.mpr hilen
        have hne : st ≠ cs.length := fun he => hacc ⟨he, hilen⟩
        have h2 : (cs.drop st = []) = False :=
          eq_false (fun he => by
            have := List.drop_eq_nil_iff.mp he
            omega)
        rw [h1]
        simp [eq_comm, h2]
      | some ch =>
        rw [statesFrom_chain_some hdot]
        by_cases hm : cs.get? st = some ch
        · rw [if_pos hm]
          simp only [List.reverse_cons, List.reverse_nil, List.nil_append,
            List.append_nil]
          have hclt : st < cs.length := (List.get?_eq_some.mp hm).1
          have hilt : st < input.length := (List.get?_eq_some.mp hc).1
          rw [ih (st + 1) (by omega) (by omega)]
          have hdc : cs.drop st = ch :: cs.drop (st + 1) := by
            rw [List.drop_eq_getElem_cons hclt]
            have : cs[st] = ch := by
              have := List.get?_eq_some.mp hm
              obtain ⟨h, hget⟩ := this
              simpa [List.get_eq_getElem] using hget
            rw [this]
          have hdi : input.drop st = ch :: input.drop (st + 1) := by
            rw [List.drop_eq_getElem_cons hilt]
            have : input[st] = ch := by
              have := List.get?_eq_some.mp hc
              obtain ⟨h, hget⟩ := this
              simpa [List.get_eq_getElem] using hget
            rw [this]
          have hiff : (input.drop st = cs.drop st) ↔
              (input.drop (st + 1) = cs.drop (st + 1)) := by
            rw [hdi, hdc]
            simp
          simp only [hiff]
        · rw [if_neg hm]
          simp only [List.reverse_nil, List.nil_append, isMatchLoop_nil]
          have hne : ¬ (input.drop st = cs.drop st) := fun he => by
            have h0 : (input.drop st).get? 0 = (cs.drop st).get? 0 := by
              rw [he]
            rw [List.get?_eq_getElem?, List.get?_eq_getElem?,
              List.getElem?_drop, List.getElem?_drop] at h0
            rw [List.get?_eq_getElem?] at hc hm
            rw [Nat.add_zero] at h0
            rw [hc] at h0
            exact hm h0.symm
          simp [hne]

/-- C2 is false as stated: the wildcard `'.'` is an accepted term
character, the pattern `"."` contains no quantifier and no alternation,
yet `Engine::new(".").is_match("x")` is `true` although `"x" ≠ "."`. -/
theorem c2_counterexample :
    engineNew ['.'] = some (⟨[((0, some '.'), [1])], []⟩, 1) ∧
    engineAccepts ⟨[((0, some '.'), [1])], []⟩ 1 ['x'] ∧
    ['x'] ≠ ['.'] := by
  refine ⟨?_, ⟨3, rfl⟩, by decide⟩
  show toTransition (PatternSection.Char '.' Mod.One) 0 1 = _
  rw [toTransition_char_one]

/-- C2 amended: for every pattern of plain term characters other than
the wildcard (ASCII alphanumerics), the engine compiles to the chain
automaton and `is_match` accepts exactly the pattern string itself. -/
theorem c2_literal_exact (cs : List Char)
    (hall : ∀ c ∈ cs, isAsciiAlphanumeric c = true) :
    engineNew cs = some (chainT cs, cs.length) ∧
      ∀ s : List Char, (engineAccepts (chainT cs) cs.length s ↔ s = cs) := by
  have hdot : '.' ∉ cs := fun hmem =>
    absurd (hall '.' hmem) (by decide)
  constructor
  · simp [engineNew, parse_alnum hall, compile_literal]
  · intro s
    have hrun := @chain_loop cs s hdot (cs.length + 1) 0 (Nat.zero_le _)
      (by omega)
    rw [List.drop_zero, List.drop_zero] at hrun
    rw [engineAccepts_iff_run hrun]
    simp

theorem c2_literal_exact_witness :
    engineNew ['a'] = some (chainT ['a'], 1) ∧
      (engineAccepts (chainT ['a']) 1 ['a'] ↔ ['a'] = ['a']) := by
  have h := c2_literal_exact ['a'] (by decide)
  exact ⟨h.1, h.2 ['a']⟩

/-! ### C3: character classes -/

theorem parseLoop_nil (rl fuel : Nat) (stack : List PatternSection)
    (ops : List Op) (na : Bool) (idx : Nat) :
    parseLoop rl fuel stack ops na idx [] = some (stack, ops) := by
  cases fuel <;> rfl

theorem scanUntil_through {ms : List Char} (h : ']' ∉ ms)
    (rest : List Char) :
    scanUntil (fun x => x = ']') (ms ++ ']' :: rest) = some (ms, ']', rest) := by
  induction ms with
  | nil => simp [scanUntil]
  | cons c ms' ih =>
    have hc : c ≠ ']' := fun he => h (he ▸ List.mem_cons_self c ms')
    rw [List.cons_append, scanUntil]
    simp only [hc, decide_eq_false (hc : ¬c = ']'), Bool.false_eq_true,
      if_false]
    rw [ih (fun hm => h (List.mem_cons_of_mem c hm))]
    rfl

theorem scanCharGroup_through {ms rest : List Char} (h1 : ']' ∉ ms)
    (h2 : ms.head? ≠ some '^') :
    scanCharGroup (ms ++ ']' :: rest) = some (false, ms, rest) := by
  cases ms with
  | nil =>
    rw [List.nil_append, scanCharGroup]
    simp [scanUntil]
  | cons m ms' =>
    have hm : m ≠ '^' := fun he => h2 (by rw [List.head?_cons, he])
    rw [List.cons_append, scanCharGroup, if_neg hm, ← List.cons_append,
      scanUntil_through h1]
    rfl

theorem scanCharGroup_through_neg {ms rest : List Char} (h1 : ']' ∉ ms) :
    scanCharGroup ('^' :: (ms ++ ']' :: rest)) = some (true, ms, rest) := by
  rw [scanCharGroup, if_pos rfl, scanUntil_through h1]
  rfl

theorem parseLoop_class (rl fuel : Nat) {ms : List Char} (h1 : ']' ∉ ms)
    (h2 : ms.head? ≠ some '^') :
    parseLoop rl (fuel + 1) [] [] false 0 ('[' :: (ms ++ [']'])) =
      some ([PatternSection.CharGroup ms Mod.One false], []) := by
  have hsc : scanCharGroup (ms ++ [']']) = some (false, ms, []) :=
    scanCharGroup_through h1 h2
  simp [parseLoop, Mod.fromChar, hsc, parseLoop_nil]

theorem parseLoop_class_neg (rl fuel : Nat) {ms : List Char}
    (h1 : ']' ∉ ms) :
    parseLoop rl (fuel + 1) [] [] false 0 ('[' :: '^' :: (ms ++ [']'])) =
      some ([PatternSection.CharGroup ms Mod.One true], []) := by
  have hsc : scanCharGroup ('^' :: (ms ++ [']'])) = some (true, ms, []) :=
    scanCharGroup_through_neg h1
  simp [parseLoop, Mod.fromChar, hsc, parseLoop_nil]

theorem parse_class_pos {ms : List Char} (h1 : ']' ∉ ms)
    (h2 : ms.head? ≠ some '^') :
    parse ('[' :: (ms ++ [']'])) =
      some (PatternSection.CharGroup ms Mod.One false) := by
  rw [parse, List.length_cons, parseLoop_class _ _ h1 h2]
  simp [collapseStacks]

theorem parse_class_neg {ms : List Char} (h1 : ']' ∉ ms) :
    parse ('[' :: '^' :: (ms ++ [']'])) =
      some (PatternSection.CharGroup ms Mod.One true) := by
  rw [parse, List.length_cons, List.length_cons, parseLoop_class_neg _ _ h1]
  simp [collapseStacks]

theorem classFold_eq :
    ∀ (ms : List Char) (B : List ((Nat × Option Char) × List Nat)),
      ms.Nodup →
      (∀ c ∈ ms, ∀ e ∈ B, e.1 ≠ ((0 : Nat), some c)) →
      (ms.foldl (fun t c => Transition.insertBase t ((0 : Nat), some c) 1)
          ⟨B, []⟩) =
        ⟨B ++ ms.map (fun c => (((0 : Nat), some c), [1])), []⟩ := by
  intro ms
  induction ms with
  | nil => intro B _ _; simp
  | cons c rest ih =>
    intro B hnd hfresh
    obtain ⟨hcr, hndr⟩ := List.nodup_cons.mp hnd
    rw [List.foldl_cons]
    have hins : Transition.insertBase ⟨B, []⟩ ((0 : Nat), some c) 1 =
        ⟨B ++ [(((0 : Nat), some c), [1])], []⟩ := by
      rw [Transition.insertBase]
      simp only
      rw [insAppend_fresh
        (fun e he => hfresh c (List.mem_cons_self c rest) e he)]
    rw [hins, ih (B ++ [(((0 : Nat), some c), [1])]) hndr
      (fun c' hc' e he => by
        rcases List.mem_append.mp he with h' | h'
        · exact hfresh c' (List.mem_cons_of_mem c hc') e h'
        · rcases List.mem_singleton.mp h' with rfl
          intro heq
          have : c = c' := by
            have := congrArg Prod.snd heq
            exact Option.some.inj this
          exact hcr (this ▸ hc'))]
    simp

/-- Compiling a non-negated class (duplicate-free members): one edge
per member, all from state 0 to state 1. -/
theorem compile_class_pos {ms : List Char} (hnd : ms.Nodup) :
    toTransition (PatternSection.CharGroup ms Mod.One false) 0 1 =
      some (⟨ms.map (fun c => (((0 : Nat), some c), [1])), []⟩, 1) := by
  have hfold := classFold_eq ms [] hnd (fun c _ e he => by cases he)
  have hmerge : Transition.new.merge
      ⟨ms.map (fun c => (((0 : Nat), some c), [1])), []⟩ =
      ⟨ms.map (fun c => (((0 : Nat), some c), [1])), []⟩ := by
    have hpw : List.Pairwise
        (fun (a b : (Nat × Option Char) × List Nat) => a.1 ≠ b.1)
        (ms.map (fun c => (((0 : Nat), some c), [1]))) := by
      rw [List.pairwise_map]
      refine hnd.imp ?_
      intro a b hab heq
      exact hab (Option.some.inj (congrArg Prod.snd heq))
    have := foldl_insAppend_fresh
      (ms.map (fun c => (((0 : Nat), some c), [1]))) []
      (by intro e _ e' he'; cases he') hpw
    simp [Transition.merge, Transition.new, this]
  simp only [toTransition, toTransitionWithoutMod, toTransitionCharGroup,
    Bool.false_eq_true, if_false, Transition.new] at *
  rw [hfold]
  simp only [List.nil_append] at *
  rw [hmerge]
  rfl

/-- Compiling a negated class: a single `negated` entry from state 0,
keyed by the member list, to state 1. -/
theorem compile_class_neg (ms : List Char) :
    toTransition (PatternSection.CharGroup ms Mod.One true) 0 1 =
      some (⟨[], [(0, [(ms, [1])])]⟩, 1) := by
  simp [toTransition, toTransitionWithoutMod, toTransitionCharGroup,
    Transition.insertNegated, insNeg, Transition.merge, insNegEntry,
    insAppend, Transition.new, PatternSection.getMod]

theorem lookup_classBase_some (ms : List Char) (st : Nat) (ch : Char) :
    lookupAssoc (ms.map (fun c => (((0 : Nat), some c), [1]))) (st, some ch) =
      if st = 0 ∧ ch ∈ ms then [1] else [] := by
  induction ms with
  | nil => simp [lookupAssoc]
  | cons c rest ih =>
    rw [List.map_cons, lookupAssoc]
    by_cases heq : (((0 : Nat), some c) : Nat × Option Char) = (st, some ch)
    · rw [Prod.mk.injEq] at heq
      obtain ⟨h0, hc⟩ := heq
      rw [if_pos (by rw [Prod.mk.injEq]; exact ⟨h0, hc⟩),
        if_pos ⟨h0.symm, by rw [← Option.some.inj hc]; exact
          List.mem_cons_self c rest⟩]
    · rw [if_neg heq, ih]
      refine if_congr ⟨fun ⟨hs, hm⟩ => ⟨hs, List.mem_cons_of_mem c hm⟩,
        fun ⟨hs, hm⟩ => ⟨hs, ?_⟩⟩ rfl rfl
      rcases List.mem_cons.mp hm with rfl | h'
      · exact absurd (by rw [Prod.mk.injEq]; exact ⟨hs.symm, rfl⟩) heq
      · exact h'

theorem lookup_classBase_none (ms : List Char) (st : Nat) :
    lookupAssoc (ms.map (fun c => (((0 : Nat), some c), [1]))) (st, none) =
      [] := by
  induction ms with
  | nil => rfl
  | cons c rest ih =>
    rw [List.map_cons, lookupAssoc, if_neg (by simp), ih]

theorem class_pos_run (ms : List Char) (hdot : '.' ∉ ms) (c : Char) :
    isMatchLoop ⟨ms.map (fun ch => (((0 : Nat), some ch), [1])), []⟩ 1 [c] 3
        [(0, 0)] = some (decide (c ∈ ms)) := by
  have hdotf : ('.' ∈ ms) = False := eq_false hdot
  by_cases hm : c ∈ ms <;>
    simp [isMatchLoop, statesFrom, lookup_classBase_some,
      lookup_classBase_none, lookupAssoc, hdotf, hm]

theorem class_neg_run (ms : List Char) (c : Char) :
    isMatchLoop ⟨[], [(0, [(ms, [1])])]⟩ 1 [c] 3 [(0, 0)] =
      some (decide (c ∉ ms)) := by
  by_cases hm : c ∈ ms <;>
    simp [isMatchLoop, statesFrom, lookupAssoc, hm]

/-- C3 is false as stated: the class `"[.]"` has member set `{'.'}`,
but the member is stored as the wildcard key, so `"[.]"` matches the
single-character input `"x"` even though `'x' ∉ {'.'}`. -/
theorem c3_counterexample :
    engineNew ['[', '.', ']'] = some (⟨[((0, some '.'), [1])], []⟩, 1) ∧
    engineAccepts ⟨[((0, some '.'), [1])], []⟩ 1 ['x'] ∧
    'x' ∉ ['.'] := by
  refine ⟨?_, ⟨3, rfl⟩, by decide⟩
  show toTransition (PatternSection.CharGroup ['.'] Mod.One false) 0 1 = _
  rw [compile_class_pos (by decide)]
  rfl

/-- C3 amended: for a non-negated class whose member set contains
neither `']'` nor the wildcard `'.'` (and, read as a set, is listed
without duplicates and does not start with `'^'`), a single-character
input is accepted iff it is a member; for a negated class, iff it is
not a member. -/
theorem c3_class_exact_membership :
    (∀ (ms : List Char) (c : Char), ']' ∉ ms → ms.head? ≠ some '^' →
      '.' ∉ ms → ms.Nodup →
      engineNew ('[' :: (ms ++ [']'])) =
        some (⟨ms.map (fun ch => (((0 : Nat), some ch), [1])), []⟩, 1) ∧
      (engineAccepts ⟨ms.map (fun ch => (((0 : Nat), some ch), [1])), []⟩ 1
          [c] ↔ c ∈ ms)) ∧
    (∀ (ms : List Char) (c : Char), ']' ∉ ms →
      engineNew ('[' :: '^' :: (ms ++ [']'])) =
        some (⟨[], [(0, [(ms, [1])])]⟩, 1) ∧
      (engineAccepts ⟨[], [(0, [(ms, [1])])]⟩ 1 [c] ↔ c ∉ ms)) := by
  constructor
  · intro ms c h1 h2 h3 h4
    refine ⟨?_, ?_⟩
    · simp [engineNew, parse_class_pos h1 h2, compile_class_pos h4]
    · rw [engineAccepts_iff_run (class_pos_run ms h3 c)]
      simp
  · intro ms c h1
    refine ⟨?_, ?_⟩
    · simp [engineNew, parse_class_neg h1, compile_class_neg]
    · rw [engineAccepts_iff_run (class_neg_run ms c)]
      simp

theorem c3_class_exact_membership_witness :
    (engineNew ['[', 'c', 'd', ']'] =
        some (⟨[(((0 : Nat), some 'c'), [1]), (((0 : Nat), some 'd'), [1])],
          []⟩, 1) ∧
      (engineAccepts
        ⟨[(((0 : Nat), some 'c'), [1]), (((0 : Nat), some 'd'), [1])], []⟩ 1
        ['c'] ↔ 'c' ∈ ['c', 'd'])) ∧
    (engineNew ['[', '^', 'b', 'c', ']'] =
        some (⟨[], [(0, [(['b', 'c'], [1])])]⟩, 1) ∧
      (engineAccepts ⟨[], [(0, [(['b', 'c'], [1])])]⟩ 1 ['a'] ↔
        'a' ∉ ['b', 'c'])) := by
  have h1 := c3_class_exact_membership.1 ['c', 'd'] 'c' (by decide)
    (by decide) (by decide) (by decide)
  have h2 := c3_class_exact_membership.2 ['b', 'c'] 'a' (by decide)
  exact ⟨h1, h2⟩

end Regex
